import Mathlib

/-!
Verification of the bounded TTL response cache in `src/api/index.py`
(`cache_response`, `handle_errors` and the route wiring).

The Python cache `_app_cache` is a `dict` mapping string keys to pairs
`(result, timestamp)`.  A Python dict preserves insertion order: updating an
existing key keeps its position, inserting a fresh key appends, `del` removes
the entry, and `min(keys, key=...)` scans keys in that order keeping the first
key attaining the minimum.  We model the dict as an insertion-ordered
association list `List (K × V × Int)` and mirror those operations exactly.
Timestamps (`time.time()`) are modelled as integers; only their ordering and
differences matter to the cache logic.
-/

namespace BarrioCache

/-- The cache: an insertion-ordered list of `(key, value, timestamp)` entries,
mirroring a Python dict whose values are `(result, timestamp)` pairs. -/
abbrev Cache (K V : Type) := List (K × V × Int)

variable {K V E A B : Type}

/-- `_app_cache[k]` / `k in _app_cache`: the first entry with key `k`. -/
def dictLookup [DecidableEq K] : Cache K V → K → Option (V × Int)
  | [], _ => none
  | (k2, v, t) :: rest, k => if k2 = k then some (v, t) else dictLookup rest k

/-- `_app_cache[k] = (v, t)`: overwrite in place if `k` is present (keeping its
position in insertion order), append otherwise. -/
def dictSet [DecidableEq K] : Cache K V → K → V → Int → Cache K V
  | [], k, v, t => [(k, v, t)]
  | (k2, v2, t2) :: rest, k, v, t =>
    if k2 = k then (k, v, t) :: rest else (k2, v2, t2) :: dictSet rest k v t

/-- `del _app_cache[k]`: remove the entry with key `k`. -/
def dictDel [DecidableEq K] : Cache K V → K → Cache K V
  | [], _ => []
  | (k2, v2, t2) :: rest, k =>
    if k2 = k then rest else (k2, v2, t2) :: dictDel rest k

/-- The scan performed by Python's `min(..., key=...)`: fold over the remaining
entries keeping the current best `(key, timestamp)`, replacing it only on a
strictly smaller timestamp (so ties keep the earlier key). -/
def foldMin (best : K × Int) : Cache K V → K × Int
  | [] => best
  | e :: rest => foldMin (if e.2.2 < best.2 then (e.1, e.2.2) else best) rest

/-- `min(_app_cache.keys(), key=lambda k: _app_cache[k][1])`: the first key in
insertion order whose timestamp is minimal. -/
def oldestKey : Cache K V → Option K
  | [] => none
  | e :: rest => some (foldMin (e.1, e.2.2) rest).1

/-- Outcome of one `wrapper` invocation: the returned (or raised) result, the
cache afterwards, how many times the wrapped function was invoked, and how many
entries were evicted. -/
structure GocResult (K V E : Type) where
  result : Except E V
  cache : Cache K V
  calls : Nat
  evictions : Nat
  deriving Repr

/-- The miss path of `wrapper`: run `f` (if it raises, the exception propagates
and the cache is untouched), store `(result, current_time)` under the key, then
if the cache now holds more than 50 entries delete the oldest key. -/
def computeAndStore [DecidableEq K] (cache : Cache K V) (k : K) (now : Int)
    (f : Except E V) : GocResult K V E :=
  match f with
  | Except.error e => ⟨Except.error e, cache, 1, 0⟩
  | Except.ok result =>
    let c1 := dictSet cache k result now
    if 50 < c1.length then
      match oldestKey c1 with
      | some kOld => ⟨Except.ok result, dictDel c1 kOld, 1, 1⟩
      | none => ⟨Except.ok result, c1, 1, 0⟩
    else ⟨Except.ok result, c1, 1, 0⟩

/-- The body of `cache_response(ttl)`'s `wrapper` for an already-derived cache
key: on a hit within the TTL return the cached result without invoking `f`;
otherwise compute, store and possibly evict.  `f` is the single invocation
`f(*args, **kwargs)` the wrapper would perform, modelled as its outcome. -/
def get_or_compute [DecidableEq K] (cache : Cache K V) (k : K) (ttl now : Int)
    (f : Except E V) : GocResult K V E :=
  match dictLookup cache k with
  | some (cachedResult, timestamp) =>
    if now - timestamp < ttl then ⟨Except.ok cachedResult, cache, 0, 0⟩
    else computeAndStore cache k now f
  | none => computeAndStore cache k now f

/-- Whether the call would be a cache hit: key present and not expired. -/
def isHit [DecidableEq K] (c : Cache K V) (k : K) (ttl now : Int) : Bool :=
  match dictLookup c k with
  | some (_, t) => decide (now - t < ttl)
  | none => false

/-- All stored timestamps are at most `now` (the clock never ran backwards). -/
def timesLE (c : Cache K V) (now : Int) : Prop := ∀ e ∈ c, e.2.2 ≤ now

instance {c : Cache K V} {now : Int} : Decidable (timesLE c now) :=
  List.decidableBAll (fun (e : K × V × Int) => e.2.2 ≤ now) c

/-- One recorded `get_or_compute` invocation, for reasoning about traces. -/
structure Call (K V E : Type) where
  key : K
  ttl : Int
  now : Int
  fn : Except E V

/-- Run a sequence of `get_or_compute` calls, threading the cache through. -/
def run [DecidableEq K] (c : Cache K V) (calls : List (Call K V E)) : Cache K V :=
  calls.foldl (fun acc call => (get_or_compute acc call.key call.ttl call.now call.fn).cache) c

/-- `cache_key = f"{f.__name__}_{request.method}_{request.path}_{str(args)}"`:
built from the handler name, HTTP method, request path and the stringified
positional arguments only — `kwargs` does not appear. -/
def cache_key (fname method path argsStr : String) : String :=
  fname ++ "_" ++ method ++ "_" ++ path ++ "_" ++ argsStr

/-- The full `wrapper(*args, **kwargs)`: derive the key from name, method, path
and `str(args)`, then run the hit/miss logic with `f(args, kwargs)`. -/
def wrapper (c : Cache String V) (fname method path : String)
    (ttl now : Int) (argsStr : A → String) (args : A) (kwargs : B)
    (f : A → B → Except E V) : GocResult String V E :=
  get_or_compute c (cache_key fname method path (argsStr args)) ttl now (f args kwargs)

/-- Exceptions a Flask handler body may raise, as `handle_errors` sees them:
`werkzeug.exceptions.NotFound` or any other exception. -/
inductive PyExc where
  | notFound
  | other (msg : String)
  deriving DecidableEq, Repr

/-- An HTTP-level outcome: either the handler's value, or a JSON error body
with a status code as produced by `handle_errors`. -/
inductive HttpResult (V : Type) where
  | success (v : V)
  | json (payload : List (String × String)) (status : Nat)
  deriving DecidableEq, Repr

/-- The 500 body `handle_errors` produces for a generic exception. -/
def internalErrorResponse : HttpResult V :=
  HttpResult.json
    [("error", "Error interno del servidor"), ("message", "Ocurrió un error inesperado")] 500

/-- The 404 body `handle_errors` produces for `NotFound`. -/
def notFoundResponse : HttpResult V :=
  HttpResult.json
    [("error", "Recurso no encontrado"), ("message", "La ruta solicitada no existe")] 404

/-- `handle_errors(f)` applied to one invocation of `f`: a raised `NotFound`
becomes a 404 response, any other exception becomes a 500 response, a normal
return passes through.  The wrapped function never raises. -/
def handle_errors (outcome : Except PyExc V) : HttpResult V :=
  match outcome with
  | Except.ok v => HttpResult.success v
  | Except.error PyExc.notFound => notFoundResponse
  | Except.error (PyExc.other _) => internalErrorResponse

/-! ### Lemmas about the dict operations -/

theorem dictLookup_eq_none [DecidableEq K] (c : Cache K V) (k : K) :
    dictLookup c k = none ↔ k ∉ c.map (fun e => e.1) := by
  induction c with
  | nil => simp [dictLookup]
  | cons e rest ih =>
    obtain ⟨k2, v2, t2⟩ := e
    by_cases h : k2 = k
    · subst h; simp [dictLookup]
    · simp [dictLookup, h, ih, Ne.symm h]

theorem dictLookup_mem [DecidableEq K] {c : Cache K V} {k : K} {v : V} {t : Int}
    (h : dictLookup c k = some (v, t)) : (k, v, t) ∈ c := by
  induction c with
  | nil => simp [dictLookup] at h
  | cons e rest ih =>
    obtain ⟨k2, v2, t2⟩ := e
    by_cases hk : k2 = k
    · subst hk
      simp [dictLookup] at h
      simp [h.1, h.2]
    · simp [dictLookup, hk] at h
      exact List.mem_cons_of_mem _ (ih h)

theorem mem_dictLookup [DecidableEq K] {c : Cache K V} {e : K × V × Int}
    (hnd : (c.map (fun e => e.1)).Nodup) (hmem : e ∈ c) :
    dictLookup c e.1 = some e.2 := by
  induction c with
  | nil => simp at hmem
  | cons x rest ih =>
    simp only [List.map_cons, List.nodup_cons] at hnd
    rcases List.mem_cons.mp hmem with h | h
    · subst h
      obtain ⟨k2, v2, t2⟩ := e
      simp [dictLookup]
    · have hne : x.1 ≠ e.1 := by
        intro hx
        exact hnd.1 (hx ▸ List.mem_map_of_mem (fun e => e.1) h)
      obtain ⟨k2, v2, t2⟩ := x
      simp only [dictLookup, if_neg hne]
      exact ih hnd.2 h

theorem dictLookup_append_left [DecidableEq K] {c : Cache K V} {k : K}
    (h : k ∉ c.map (fun e => e.1)) (l : Cache K V) :
    dictLookup (c ++ l) k = dictLookup l k := by
  induction c with
  | nil => simp
  | cons e rest ih =>
    obtain ⟨k2, v2, t2⟩ := e
    simp only [List.map_cons, List.mem_cons] at h
    push_neg at h
    simp only [List.cons_append, dictLookup, if_neg (Ne.symm h.1)]
    exact ih h.2

theorem dictSet_absent [DecidableEq K] {c : Cache K V} {k : K}
    (h : k ∉ c.map (fun e => e.1)) (v : V) (t : Int) :
    dictSet c k v t = c ++ [(k, v, t)] := by
  induction c with
  | nil => simp [dictSet]
  | cons e rest ih =>
    obtain ⟨k2, v2, t2⟩ := e
    simp only [List.map_cons, List.mem_cons] at h
    push_neg at h
    simp [dictSet, Ne.symm h.1, ih h.2]

theorem dictSet_keys_present [DecidableEq K] {c : Cache K V} {k : K}
    (h : dictLookup c k ≠ none) (v : V) (t : Int) :
    (dictSet c k v t).map (fun e => e.1) = c.map (fun e => e.1) := by
  induction c with
  | nil => simp [dictLookup] at h
  | cons e rest ih =>
    obtain ⟨k2, v2, t2⟩ := e
    by_cases hk : k2 = k
    · subst hk; simp [dictSet]
    · simp only [dictLookup, if_neg hk] at h
      simp [dictSet, hk, ih h]

theorem dictLookup_dictSet_self [DecidableEq K] (c : Cache K V) (k : K) (v : V) (t : Int) :
    dictLookup (dictSet c k v t) k = some (v, t) := by
  induction c with
  | nil => simp [dictSet, dictLookup]
  | cons e rest ih =>
    obtain ⟨k2, v2, t2⟩ := e
    by_cases hk : k2 = k
    · simp [dictSet, hk, dictLookup]
    · simp [dictSet, hk, dictLookup, ih]

theorem dictLookup_dictSet_ne [DecidableEq K] {c : Cache K V} {k k' : K}
    (h : k' ≠ k) (v : V) (t : Int) :
    dictLookup (dictSet c k v t) k' = dictLookup c k' := by
  induction c with
  | nil => simp [dictSet, dictLookup, Ne.symm h]
  | cons e rest ih =>
    obtain ⟨k2, v2, t2⟩ := e
    by_cases hk : k2 = k
    · subst hk
      simp [dictSet, dictLookup, Ne.symm h]
    · simp [dictSet, hk, dictLookup, ih]

theorem mem_dictSet_ne [DecidableEq K] {c : Cache K V} {e : K × V × Int} {k : K}
    (hmem : e ∈ c) (hne : e.1 ≠ k) (v : V) (t : Int) : e ∈ dictSet c k v t := by
  induction c with
  | nil => simp at hmem
  | cons x rest ih =>
    obtain ⟨k2, v2, t2⟩ := x
    rcases List.mem_cons.mp hmem with h | h
    · by_cases hk : k2 = k
      · exact absurd (h ▸ hk) hne
      · simp [dictSet, hk, h]
    · by_cases hk : k2 = k
      · simp [dictSet, hk]
        exact Or.inr h
      · simp [dictSet, hk]
        exact Or.inr (ih h)

theorem dictDel_length [DecidableEq K] {c : Cache K V} {k : K}
    (h : dictLookup c k ≠ none) : (dictDel c k).length + 1 = c.length := by
  induction c with
  | nil => simp [dictLookup] at h
  | cons e rest ih =>
    obtain ⟨k2, v2, t2⟩ := e
    by_cases hk : k2 = k
    · simp [dictDel, hk]
    · simp only [dictLookup, if_neg hk] at h
      simp only [dictDel, if_neg hk, List.length_cons]
      have := ih h
      omega

theorem dictDel_subset [DecidableEq K] {c : Cache K V} {k : K} {e : K × V × Int}
    (h : e ∈ dictDel c k) : e ∈ c := by
  induction c with
  | nil => simp [dictDel] at h
  | cons x rest ih =>
    obtain ⟨k2, v2, t2⟩ := x
    by_cases hk : k2 = k
    · simp only [dictDel, if_pos hk] at h
      exact List.mem_cons_of_mem _ h
    · simp only [dictDel, if_neg hk] at h
      rcases List.mem_cons.mp h with h1 | h1
      · simp [h1]
      · exact List.mem_cons_of_mem _ (ih h1)

theorem dictLookup_dictDel_ne [DecidableEq K] {c : Cache K V} {k k' : K}
    (h : k' ≠ k) : dictLookup (dictDel c k) k' = dictLookup c k' := by
  induction c with
  | nil => simp [dictDel]
  | cons e rest ih =>
    obtain ⟨k2, v2, t2⟩ := e
    by_cases hk : k2 = k
    · subst hk
      simp [dictDel, dictLookup, Ne.symm h]
    · simp [dictDel, hk, dictLookup, ih]

theorem dictLookup_dictDel_self [DecidableEq K] {c : Cache K V} {k : K}
    (hnd : (c.map (fun e => e.1)).Nodup) :
    dictLookup (dictDel c k) k = none := by
  induction c with
  | nil => simp [dictDel, dictLookup]
  | cons e rest ih =>
    obtain ⟨k2, v2, t2⟩ := e
    simp only [List.map_cons, List.nodup_cons] at hnd
    by_cases hk : k2 = k
    · subst hk
      simp only [dictDel, if_pos rfl]
      exact (dictLookup_eq_none rest k2).mpr hnd.1
    · simp [dictDel, hk, dictLookup, ih hnd.2]

theorem dictDel_append_left [DecidableEq K] {c : Cache K V} {k : K}
    (h : k ∈ c.map (fun e => e.1)) (l : Cache K V) :
    dictDel (c ++ l) k = dictDel c k ++ l := by
  induction c with
  | nil => simp at h
  | cons e rest ih =>
    obtain ⟨k2, v2, t2⟩ := e
    by_cases hk : k2 = k
    · simp [dictDel, hk]
    · simp only [List.map_cons, List.mem_cons] at h
      rcases h with h | h
      · exact absurd h.symm hk
      · simp [dictDel, hk, ih h]

theorem dictSet_nodup_keys [DecidableEq K] {c : Cache K V} {k : K} (v : V) (t : Int)
    (hnd : (c.map (fun e => e.1)).Nodup) :
    ((dictSet c k v t).map (fun e => e.1)).Nodup := by
  by_cases h : dictLookup c k = none
  · rw [dictSet_absent ((dictLookup_eq_none c k).mp h) v t]
    simp only [List.map_append, List.map_cons, List.map_nil]
    rw [List.nodup_append]
    refine ⟨hnd, List.nodup_singleton k, ?_⟩
    intro a ha hb
    simp at hb
    exact (dictLookup_eq_none c k).mp h (hb ▸ ha)
  · rw [dictSet_keys_present h v t]
    exact hnd

/-! ### Lemmas about the eviction scan -/

theorem foldMin_le_best {l : Cache K V} (best : K × Int) :
    (foldMin best l).2 ≤ best.2 := by
  induction l generalizing best with
  | nil => exact le_refl _
  | cons e rest ih =>
    simp only [foldMin]
    by_cases h : e.2.2 < best.2
    · simp only [if_pos h]
      exact le_trans (ih _) (le_of_lt h)
    · simp only [if_neg h]
      exact ih best

theorem foldMin_le_mem {l : Cache K V} {e : K × V × Int} (best : K × Int)
    (hmem : e ∈ l) : (foldMin best l).2 ≤ e.2.2 := by
  induction l generalizing best with
  | nil => simp at hmem
  | cons x rest ih =>
    rcases List.mem_cons.mp hmem with h | h
    · subst h
      simp only [foldMin]
      by_cases hx : e.2.2 < best.2
      · simp only [if_pos hx]
        exact foldMin_le_best _
      · simp only [if_neg hx]
        exact le_trans (foldMin_le_best _) (le_of_not_lt hx)
    · simp only [foldMin]
      exact ih _ h

theorem foldMin_eq_best_or_mem (l : Cache K V) (best : K × Int) :
    foldMin best l = best ∨ ∃ e ∈ l, foldMin best l = (e.1, e.2.2) := by
  induction l generalizing best with
  | nil => exact Or.inl rfl
  | cons x rest ih =>
    simp only [foldMin]
    by_cases hx : x.2.2 < best.2
    · simp only [if_pos hx]
      rcases ih (x.1, x.2.2) with h | ⟨e, he, h⟩
      · exact Or.inr ⟨x, List.mem_cons_self x rest, h⟩
      · exact Or.inr ⟨e, List.mem_cons_of_mem _ he, h⟩
    · simp only [if_neg hx]
      rcases ih best with h | ⟨e, he, h⟩
      · exact Or.inl h
      · exact Or.inr ⟨e, List.mem_cons_of_mem _ he, h⟩

theorem foldMin_keep {l : Cache K V} {best : K × Int}
    (h : ∀ e ∈ l, best.2 ≤ e.2.2) : foldMin best l = best := by
  induction l with
  | nil => rfl
  | cons x rest ih =>
    simp only [foldMin, if_neg (not_lt_of_le (h x (List.mem_cons_self x rest)))]
    exact ih fun e he => h e (List.mem_cons_of_mem _ he)

theorem foldMin_append (l l2 : Cache K V) (best : K × Int) :
    foldMin best (l ++ l2) = foldMin (foldMin best l) l2 := by
  induction l generalizing best with
  | nil => rfl
  | cons x rest ih =>
    simp only [List.cons_append, foldMin]
    exact ih _

theorem oldestKey_spec {c : Cache K V} {kd : K} (h : oldestKey c = some kd) :
    ∃ vd td, (kd, vd, td) ∈ c ∧ ∀ e ∈ c, td ≤ e.2.2 := by
  match c with
  | [] => simp [oldestKey] at h
  | x :: rest =>
    simp only [oldestKey, Option.some.injEq] at h
    have hmin : ∀ e ∈ x :: rest, (foldMin (x.1, x.2.2) rest).2 ≤ e.2.2 := by
      intro e he
      rcases List.mem_cons.mp he with h1 | h1
      · subst h1
        exact foldMin_le_best _
      · exact foldMin_le_mem _ h1
    rcases foldMin_eq_best_or_mem rest (x.1, x.2.2) with hb | ⟨e, he, hb⟩
    · refine ⟨x.2.1, (foldMin (x.1, x.2.2) rest).2, ?_, hmin⟩
      rw [hb] at h ⊢
      simp only [hb]
      have : x = (kd, x.2.1, x.2.2) := by
        rw [← h]
      rw [← this]
      exact List.mem_cons_self x rest
    · refine ⟨e.2.1, (foldMin (x.1, x.2.2) rest).2, ?_, hmin⟩
      rw [hb] at h ⊢
      simp only [← h]
      have : e = (e.1, e.2.1, e.2.2) := rfl
      rw [← this]
      exact List.mem_cons_of_mem _ he

theorem oldestKey_append_single {c : Cache K V} {t : Int} (hne : c ≠ [])
    (hle : ∃ e ∈ c, e.2.2 ≤ t) (k : K) (v : V) :
    oldestKey (c ++ [(k, v, t)]) = oldestKey c := by
  match c with
  | [] => exact absurd rfl hne
  | x :: rest =>
    simp only [List.cons_append, oldestKey, foldMin_append]
    have hnotlt : ¬ t < (foldMin (x.1, x.2.2) rest).2 := by
      obtain ⟨e, he, het⟩ := hle
      rcases List.mem_cons.mp he with h1 | h1
      · exact not_lt_of_le (le_trans (foldMin_le_best _) (h1 ▸ het))
      · exact not_lt_of_le (le_trans (foldMin_le_mem _ h1) het)
    simp [foldMin, hnotlt]

theorem oldestKey_ne_none {c : Cache K V} (h : c ≠ []) : ∃ kd, oldestKey c = some kd := by
  match c with
  | [] => exact absurd rfl h
  | x :: rest => exact ⟨_, rfl⟩

/-! ### Behaviour of `get_or_compute` -/

theorem get_or_compute_hit [DecidableEq K] {c : Cache K V} {k : K} {v : V} {t ttl now : Int}
    (hmem : dictLookup c k = some (v, t)) (hfresh : now - t < ttl) (f : Except E V) :
    get_or_compute c k ttl now f = ⟨Except.ok v, c, 0, 0⟩ := by
  simp [get_or_compute, hmem, hfresh]

theorem get_or_compute_miss [DecidableEq K] {c : Cache K V} {k : K} {ttl now : Int}
    (hmiss : isHit c k ttl now = false) (f : Except E V) :
    get_or_compute c k ttl now f = computeAndStore c k now f := by
  unfold get_or_compute
  unfold isHit at hmiss
  match hlk : dictLookup c k with
  | none => rfl
  | some (v, t) =>
    rw [hlk] at hmiss
    simp only [decide_eq_false_iff_not] at hmiss
    simp [hmiss]

theorem isHit_true_iff [DecidableEq K] {c : Cache K V} {k : K} {ttl now : Int} :
    isHit c k ttl now = true ↔ ∃ v t, dictLookup c k = some (v, t) ∧ now - t < ttl := by
  unfold isHit
  match hlk : dictLookup c k with
  | none => simp
  | some (v, t) =>
    simp only [hlk, Option.some.injEq, Prod.mk.injEq, decide_eq_true_eq]
    constructor
    · intro h
      exact ⟨v, t, ⟨rfl, rfl⟩, h⟩
    · rintro ⟨v2, t2, ⟨hv, ht⟩, h⟩
      exact ht ▸ h

theorem computeAndStore_calls [DecidableEq K] (c : Cache K V) (k : K) (now : Int)
    (f : Except E V) : (computeAndStore c k now f).calls = 1 := by
  match f with
  | Except.error e => rfl
  | Except.ok v =>
    simp only [computeAndStore]
    split
    · split <;> rfl
    · rfl

/-- A successful miss stores `(v, now)` under `k`, returns `v`, invokes the
wrapped function once, and (given a cache at or below capacity with no
timestamps from the future) the stored entry survives the eviction step and
the cache stays at or below capacity. -/
theorem miss_store [DecidableEq K] {c : Cache K V} {k : K} {ttl now : Int} (v : V)
    (hmiss : isHit c k ttl now = false) (hlen : c.length ≤ 50) (htime : timesLE c now) :
    (get_or_compute c k ttl now (Except.ok v : Except E V)).result = Except.ok v ∧
    (get_or_compute c k ttl now (Except.ok v : Except E V)).calls = 1 ∧
    dictLookup (get_or_compute c k ttl now (Except.ok v : Except E V)).cache k = some (v, now) ∧
    (get_or_compute c k ttl now (Except.ok v : Except E V)).cache.length ≤ 50 := by
  rw [get_or_compute_miss hmiss]
  by_cases hpres : dictLookup c k = none
  · have habs : k ∉ c.map (fun e => e.1) := (dictLookup_eq_none c k).mp hpres
    have hc1 : dictSet c k v now = c ++ [(k, v, now)] := dictSet_absent habs v now
    by_cases hgrow : 50 < (dictSet c k v now).length
    · have hlen50 : c.length = 50 := by
        rw [hc1] at hgrow
        simp only [List.length_append, List.length_cons, List.length_nil] at hgrow
        omega
      have hcne : c ≠ [] := by
        intro h
        rw [h] at hlen50
        simp at hlen50
      have hex : ∃ e ∈ c, e.2.2 ≤ now := by
        obtain ⟨e, he⟩ := List.exists_mem_of_ne_nil c hcne
        exact ⟨e, he, htime e he⟩
      have hold : oldestKey (dictSet c k v now) = oldestKey c := by
        rw [hc1]
        exact oldestKey_append_single hcne hex k v
      obtain ⟨kd, hkd⟩ := oldestKey_ne_none hcne
      obtain ⟨vd, td, hkdmem, _⟩ := oldestKey_spec hkd
      have hkdkeys : kd ∈ c.map (fun e => e.1) := List.mem_map_of_mem _ hkdmem
      simp only [computeAndStore, if_pos hgrow, hold, hkd]
      refine ⟨trivial, trivial, ?_, ?_⟩
      · rw [hc1, dictDel_append_left hkdkeys]
        rw [dictLookup_append_left ?_]
        · simp [dictLookup]
        · intro hk
          obtain ⟨e, he, hek⟩ := List.mem_map.mp hk
          exact habs (hek ▸ List.mem_map_of_mem _ (dictDel_subset he))
      · have hkdin : dictLookup (dictSet c k v now) kd ≠ none := by
          intro hnone
          refine (dictLookup_eq_none _ _).mp hnone ?_
          rw [hc1]
          simp only [List.map_append, List.mem_append]
          exact Or.inl hkdkeys
        have hdel := dictDel_length hkdin
        rw [hc1] at hdel ⊢
        simp only [List.length_append, List.length_cons, List.length_nil] at hdel ⊢
        omega
    · simp only [computeAndStore, if_neg hgrow]
      exact ⟨trivial, trivial, dictLookup_dictSet_self c k v now, le_of_not_lt hgrow⟩
  · have hkeys := dictSet_keys_present hpres v now
    have hlen1 : (dictSet c k v now).length = c.length := by
      have h1 := congrArg List.length hkeys
      simpa using h1
    have hnogrow : ¬ 50 < (dictSet c k v now).length := by omega
    simp only [computeAndStore, if_neg hnogrow]
    exact ⟨trivial, trivial, dictLookup_dictSet_self c k v now, by omega⟩

theorem isHit_false_mono [DecidableEq K] {c : Cache K V} {k : K} {ttl now₁ now₂ : Int}
    (h : isHit c k ttl now₁ = false) (hle : now₁ ≤ now₂) : isHit c k ttl now₂ = false := by
  unfold isHit at h ⊢
  match hlk : dictLookup c k with
  | none => rfl
  | some (v, t) =>
    rw [hlk] at h
    simp only [decide_eq_false_iff_not] at h
    simp only [decide_eq_false_iff_not]
    omega

/-! ### The claims -/

/-- C1: if `k` is present with entry `(v, t)` and `now - t < ttl`, then
`get_or_compute` returns `v` without invoking the wrapped function; and two
calls with the same key, the first a miss and the second within the TTL
window, invoke the wrapped function exactly once with the second call
returning the first call's result. -/
theorem C1_cache_hit_within_ttl (c : Cache String V) (k : String) (ttl : Int) :
    (∀ (v : V) (t now : Int) (f : Except E V),
      dictLookup c k = some (v, t) → now - t < ttl →
      (get_or_compute c k ttl now f).result = Except.ok v ∧
      (get_or_compute c k ttl now f).calls = 0)
    ∧
    (∀ (v₁ : V) (now₁ now₂ : Int) (f₂ : Except E V),
      isHit c k ttl now₁ = false → c.length ≤ 50 → timesLE c now₁ →
      now₂ - now₁ < ttl →
      (get_or_compute c k ttl now₁ (Except.ok v₁ : Except E V)).calls = 1 ∧
      (get_or_compute c k ttl now₁ (Except.ok v₁ : Except E V)).result = Except.ok v₁ ∧
      (get_or_compute (get_or_compute c k ttl now₁ (Except.ok v₁ : Except E V)).cache
          k ttl now₂ f₂).result = Except.ok v₁ ∧
      (get_or_compute (get_or_compute c k ttl now₁ (Except.ok v₁ : Except E V)).cache
          k ttl now₂ f₂).calls = 0) := by
  constructor
  · intro v t now f hmem hfresh
    rw [get_or_compute_hit hmem hfresh]
    exact ⟨rfl, rfl⟩
  · intro v₁ now₁ now₂ f₂ hmiss hlen htime hwin
    obtain ⟨hres, hcalls, hlook, _⟩ := miss_store (E := E) v₁ hmiss hlen htime
    rw [get_or_compute_hit hlook hwin f₂]
    exact ⟨hcalls, hres, rfl, rfl⟩

/-- Witness for C1 at a concrete cache: a hit at time 3 on an entry stored at
time 0 with TTL 10, and a miss at time 20 followed by a hit at time 25. -/
theorem C1_cache_hit_within_ttl_witness :
    ((get_or_compute [("k", 5, 0)] "k" 10 3 (Except.error "x" : Except String Nat)).result
        = Except.ok 5 ∧
      (get_or_compute [("k", 5, 0)] "k" 10 3 (Except.error "x" : Except String Nat)).calls = 0)
    ∧
    ((get_or_compute [("k", 5, 0)] "k" 10 20 (Except.ok 7 : Except String Nat)).calls = 1 ∧
      (get_or_compute [("k", 5, 0)] "k" 10 20 (Except.ok 7 : Except String Nat)).result
        = Except.ok 7 ∧
      (get_or_compute (get_or_compute [("k", 5, 0)] "k" 10 20
          (Except.ok 7 : Except String Nat)).cache
          "k" 10 25 (Except.error "x" : Except String Nat)).result = Except.ok 7 ∧
      (get_or_compute (get_or_compute [("k", 5, 0)] "k" 10 20
          (Except.ok 7 : Except String Nat)).cache
          "k" 10 25 (Except.error "x" : Except String Nat)).calls = 0) :=
  ⟨(C1_cache_hit_within_ttl [("k", 5, 0)] "k" 10).1 5 0 3 (Except.error "x")
      (by decide) (by decide),
    (C1_cache_hit_within_ttl [("k", 5, 0)] "k" 10).2 7 20 25 (Except.error "x")
      (by decide) (by decide) (by decide) (by decide)⟩

/-- C8: a cache hit leaves the cache map entirely unchanged; in particular the
hit entry keeps its original insertion timestamp (no refresh on access). -/
theorem C8_hit_mutates_nothing (c : Cache String V) (k : String) (ttl now t : Int)
    (v : V) (f : Except E V) (hmem : dictLookup c k = some (v, t))
    (hfresh : now - t < ttl) :
    (get_or_compute c k ttl now f).cache = c ∧
    dictLookup (get_or_compute c k ttl now f).cache k = some (v, t) := by
  rw [get_or_compute_hit hmem hfresh]
  exact ⟨rfl, hmem⟩

/-- Witness for C8: a concrete hit at time 3 on an entry from time 0. -/
theorem C8_hit_mutates_nothing_witness :
    (get_or_compute [("k", 7, 0)] "k" 10 3 (Except.error "boom" : Except String Nat)).cache
        = [("k", 7, 0)] ∧
    dictLookup (get_or_compute [("k", 7, 0)] "k" 10 3
        (Except.error "boom" : Except String Nat)).cache "k" = some (7, 0) :=
  C8_hit_mutates_nothing [("k", 7, 0)] "k" 10 3 0 7 (Except.error "boom")
    (by decide) (by decide)

/-- C2: on a miss (absent key, or present entry with `now - t ≥ ttl`) the
wrapped function is invoked exactly once, `(result, now)` is stored under the
key — an expired entry is overwritten in place, with no separate delete step,
so the key sequence of the cache is unchanged — and the result is returned; a
second call made after the TTL has elapsed invokes the function a second
time. -/
theorem C2_cache_miss_stores (c : Cache String V) (k : String) (ttl : Int) :
    (∀ (now : Int) (v : V),
      isHit c k ttl now = false → c.length ≤ 50 → timesLE c now →
      (get_or_compute c k ttl now (Except.ok v : Except E V)).result = Except.ok v ∧
      (get_or_compute c k ttl now (Except.ok v : Except E V)).calls = 1 ∧
      dictLookup (get_or_compute c k ttl now (Except.ok v : Except E V)).cache k
        = some (v, now))
    ∧
    (∀ (now t₀ : Int) (v v₀ : V),
      dictLookup c k = some (v₀, t₀) → ttl ≤ now - t₀ → c.length ≤ 50 →
      ((get_or_compute c k ttl now (Except.ok v : Except E V)).cache).map (fun e => e.1)
        = c.map (fun e => e.1))
    ∧
    (∀ (now₁ now₂ : Int) (v₁ : V) (f₂ : Except E V),
      isHit c k ttl now₁ = false → c.length ≤ 50 → timesLE c now₁ → ttl ≤ now₂ - now₁ →
      (get_or_compute (get_or_compute c k ttl now₁ (Except.ok v₁ : Except E V)).cache
          k ttl now₂ f₂).calls = 1) := by
  refine ⟨?_, ?_, ?_⟩
  · intro now v hmiss hlen htime
    obtain ⟨h1, h2, h3, _⟩ := miss_store (E := E) v hmiss hlen htime
    exact ⟨h1, h2, h3⟩
  · intro now t₀ v v₀ hmem hexp hlen
    have hmiss : isHit c k ttl now = false := by
      unfold isHit
      rw [hmem]
      simp only [decide_eq_false_iff_not]
      omega
    rw [get_or_compute_miss hmiss]
    have hpres : dictLookup c k ≠ none := by
      rw [hmem]
      exact Option.noConfusion
    have hkeys := dictSet_keys_present hpres v now
    have hlen1 : (dictSet c k v now).length = c.length := by
      have h1 := congrArg List.length hkeys
      simpa using h1
    have hnogrow : ¬ 50 < (dictSet c k v now).length := by omega
    simp only [computeAndStore, if_neg hnogrow]
    exact hkeys
  · intro now₁ now₂ v₁ f₂ hmiss hlen htime hexp
    obtain ⟨_, _, hlook, _⟩ := miss_store (E := E) v₁ hmiss hlen htime
    have hmiss2 : isHit (get_or_compute c k ttl now₁
        (Except.ok v₁ : Except E V)).cache k ttl now₂ = false := by
      unfold isHit
      rw [hlook]
      simp only [decide_eq_false_iff_not]
      omega
    rw [get_or_compute_miss hmiss2]
    exact computeAndStore_calls _ _ _ _

/-- Witness for C2 on the one-entry cache `[("k", 5, 0)]` with TTL 10: an
expired-entry miss at time 20 stores in place, and a further call at time 30
recomputes. -/
theorem C2_cache_miss_stores_witness :
    ((get_or_compute [("k", 5, 0)] "k" 10 20 (Except.ok 7 : Except String Nat)).result
        = Except.ok 7 ∧
      (get_or_compute [("k", 5, 0)] "k" 10 20 (Except.ok 7 : Except String Nat)).calls = 1 ∧
      dictLookup (get_or_compute [("k", 5, 0)] "k" 10 20
          (Except.ok 7 : Except String Nat)).cache "k" = some (7, 20))
    ∧
    (((get_or_compute [("k", 5, 0)] "k" 10 20
        (Except.ok 7 : Except String Nat)).cache).map (fun e => e.1)
      = [("k", (5 : Nat), (0 : Int))].map (fun e => e.1))
    ∧
    ((get_or_compute (get_or_compute [("k", 5, 0)] "k" 10 20
        (Except.ok 7 : Except String Nat)).cache
        "k" 10 30 (Except.ok 9 : Except String Nat)).calls = 1) :=
  ⟨(C2_cache_miss_stores [("k", 5, 0)] "k" 10).1 20 7 (by decide) (by decide) (by decide),
    (C2_cache_miss_stores [("k", 5, 0)] "k" 10).2.1 20 0 7 5 (by decide) (by decide)
      (by decide),
    (C2_cache_miss_stores [("k", 5, 0)] "k" 10).2.2 20 30 7 (Except.ok 9) (by decide)
      (by decide) (by decide) (by decide)⟩

/-- C6: if the miss path is taken and the wrapped function raises, the
exception propagates unchanged, the wrapped function was invoked once, and the
cache is exactly as before the call (nothing stored, nothing evicted); a
subsequent call with a non-raising function under the same key is an ordinary
miss that succeeds and stores its result. -/
theorem C6_failure_not_cached (c : Cache String V) (k : String) (ttl : Int) :
    (∀ (now : Int) (e : E),
      isHit c k ttl now = false →
      (get_or_compute c k ttl now (Except.error e : Except E V)).result = Except.error e ∧
      (get_or_compute c k ttl now (Except.error e : Except E V)).cache = c ∧
      (get_or_compute c k ttl now (Except.error e : Except E V)).calls = 1 ∧
      (get_or_compute c k ttl now (Except.error e : Except E V)).evictions = 0)
    ∧
    (∀ (now₁ now₂ : Int) (e : E) (v : V),
      isHit c k ttl now₁ = false → now₁ ≤ now₂ → c.length ≤ 50 → timesLE c now₁ →
      (get_or_compute (get_or_compute c k ttl now₁ (Except.error e : Except E V)).cache
          k ttl now₂ (Except.ok v : Except E V)).result = Except.ok v ∧
      (get_or_compute (get_or_compute c k ttl now₁ (Except.error e : Except E V)).cache
          k ttl now₂ (Except.ok v : Except E V)).calls = 1 ∧
      dictLookup (get_or_compute (get_or_compute c k ttl now₁
          (Except.error e : Except E V)).cache
          k ttl now₂ (Except.ok v : Except E V)).cache k = some (v, now₂)) := by
  constructor
  · intro now e hmiss
    rw [get_or_compute_miss hmiss]
    exact ⟨rfl, rfl, rfl, rfl⟩
  · intro now₁ now₂ e v hmiss h12 hlen htime
    have hc1 : (get_or_compute c k ttl now₁ (Except.error e : Except E V)).cache = c := by
      rw [get_or_compute_miss hmiss]
      rfl
    rw [hc1]
    have hmiss2 : isHit c k ttl now₂ = false := isHit_false_mono hmiss h12
    have htime2 : timesLE c now₂ := fun x hx => le_trans (htime x hx) h12
    obtain ⟨h1, h2, h3, _⟩ := miss_store (E := E) v hmiss2 hlen htime2
    exact ⟨h1, h2, h3⟩

/-- Witness for C6 on the empty cache: a raising call at time 5 leaves the
cache empty, a succeeding call at time 6 stores normally. -/
theorem C6_failure_not_cached_witness :
    ((get_or_compute ([] : Cache String Nat) "k" 10 5
        (Except.error "boom" : Except String Nat)).result = Except.error "boom" ∧
      (get_or_compute ([] : Cache String Nat) "k" 10 5
        (Except.error "boom" : Except String Nat)).cache = [] ∧
      (get_or_compute ([] : Cache String Nat) "k" 10 5
        (Except.error "boom" : Except String Nat)).calls = 1 ∧
      (get_or_compute ([] : Cache String Nat) "k" 10 5
        (Except.error "boom" : Except String Nat)).evictions = 0)
    ∧
    ((get_or_compute (get_or_compute ([] : Cache String Nat) "k" 10 5
        (Except.error "boom" : Except String Nat)).cache
        "k" 10 6 (Except.ok 7 : Except String Nat)).result = Except.ok 7 ∧
      (get_or_compute (get_or_compute ([] : Cache String Nat) "k" 10 5
        (Except.error "boom" : Except String Nat)).cache
        "k" 10 6 (Except.ok 7 : Except String Nat)).calls = 1 ∧
      dictLookup (get_or_compute (get_or_compute ([] : Cache String Nat) "k" 10 5
          (Except.error "boom" : Except String Nat)).cache
          "k" 10 6 (Except.ok 7 : Except String Nat)).cache "k" = some (7, 6)) :=
  ⟨(C6_failure_not_cached ([] : Cache String Nat) "k" 10).1 5 "boom" (by decide),
    (C6_failure_not_cached ([] : Cache String Nat) "k" 10).2 5 6 "boom" 7 (by decide)
      (by decide) (by decide) (by decide)⟩

theorem dictSet_length_le [DecidableEq K] (c : Cache K V) (k : K) (v : V) (t : Int) :
    (dictSet c k v t).length ≤ c.length + 1 := by
  induction c with
  | nil => simp [dictSet]
  | cons e rest ih =>
    obtain ⟨k2, v2, t2⟩ := e
    by_cases hk : k2 = k
    · simp [dictSet, hk]
    · simp only [dictSet, if_neg hk, List.length_cons]
      omega

theorem oldestKey_mem_keys {c : Cache K V} {kd : K} (h : oldestKey c = some kd) :
    kd ∈ c.map (fun e => e.1) := by
  obtain ⟨vd, td, hmem, _⟩ := oldestKey_spec h
  exact List.mem_map_of_mem _ hmem

theorem computeAndStore_length_le [DecidableEq K] {c : Cache K V} (hlen : c.length ≤ 50)
    (k : K) (now : Int) (f : Except E V) :
    (computeAndStore c k now f).cache.length ≤ 50 := by
  match f with
  | Except.error e => exact hlen
  | Except.ok v =>
    simp only [computeAndStore]
    by_cases hgrow : 50 < (dictSet c k v now).length
    · rw [if_pos hgrow]
      have hne : dictSet c k v now ≠ [] := by
        intro h
        rw [h] at hgrow
        simp at hgrow
      obtain ⟨kd, hkd⟩ := oldestKey_ne_none hne
      rw [hkd]
      have hkdin : dictLookup (dictSet c k v now) kd ≠ none := by
        intro hnone
        exact (dictLookup_eq_none _ _).mp hnone (oldestKey_mem_keys hkd)
      have hdel := dictDel_length hkdin
      have hsetle := dictSet_length_le c k v now
      show (dictDel (dictSet c k v now) kd).length ≤ 50
      omega
    · rw [if_neg hgrow]
      exact le_of_not_lt hgrow

theorem isHit_false_of_ne [DecidableEq K] {c : Cache K V} {k : K} {ttl now : Int}
    (h : ¬ isHit c k ttl now = true) : isHit c k ttl now = false := by
  cases h2 : isHit c k ttl now
  · rfl
  · exact absurd h2 h

theorem step_length_le [DecidableEq K] {c : Cache K V} (hlen : c.length ≤ 50)
    (k : K) (ttl now : Int) (f : Except E V) :
    (get_or_compute c k ttl now f).cache.length ≤ 50 := by
  by_cases hhit : isHit c k ttl now = true
  · obtain ⟨v, t, hmem, hfresh⟩ := isHit_true_iff.mp hhit
    rw [get_or_compute_hit hmem hfresh f]
    exact hlen
  · rw [get_or_compute_miss (isHit_false_of_ne hhit)]
    exact computeAndStore_length_le hlen k now f

theorem computeAndStore_evictions_ok [DecidableEq K] (c : Cache K V) (k : K) (now : Int)
    (v : V) :
    (computeAndStore c k now (Except.ok v : Except E V)).evictions
      = if 50 < (dictSet c k v now).length then 1 else 0 := by
  simp only [computeAndStore]
  by_cases hgrow : 50 < (dictSet c k v now).length
  · rw [if_pos hgrow, if_pos hgrow]
    have hne : dictSet c k v now ≠ [] := by
      intro h
      rw [h] at hgrow
      simp at hgrow
    obtain ⟨kd, hkd⟩ := oldestKey_ne_none hne
    rw [hkd]
  · rw [if_neg hgrow, if_neg hgrow]

/-- C3: starting from the empty cache, after every completed `get_or_compute`
call the cache holds at most 50 entries; each call performs at most one
eviction, evicting exactly when it performs an insertion that leaves the cache
with more than 50 entries; an overwrite of an existing key never evicts. -/
theorem C3_capacity_invariant :
    (∀ (calls : List (Call String V E)), (run ([] : Cache String V) calls).length ≤ 50)
    ∧
    (∀ (c : Cache String V) (k : String) (ttl now : Int) (f : Except E V),
      c.length ≤ 50 →
      (get_or_compute c k ttl now f).evictions ≤ 1 ∧
      ((get_or_compute c k ttl now f).evictions = 1 ↔
        (isHit c k ttl now = false ∧
          ∃ v, f = Except.ok v ∧ 50 < (dictSet c k v now).length)) ∧
      (dictLookup c k ≠ none → (get_or_compute c k ttl now f).evictions = 0)) := by
  constructor
  · have hgen : ∀ (calls : List (Call String V E)) (c : Cache String V),
        c.length ≤ 50 → (run c calls).length ≤ 50 := by
      intro calls
      induction calls with
      | nil => intro c hc; exact hc
      | cons x rest ih =>
        intro c hc
        exact ih _ (step_length_le hc x.key x.ttl x.now x.fn)
    intro calls
    exact hgen calls [] (by simp)
  · intro c k ttl now f hlen
    by_cases hhit : isHit c k ttl now = true
    · obtain ⟨v, t, hmem, hfresh⟩ := isHit_true_iff.mp hhit
      rw [get_or_compute_hit hmem hfresh]
      refine ⟨Nat.zero_le 1, ?_, fun _ => rfl⟩
      constructor
      · intro h
        exact absurd h (by simp)
      · rintro ⟨hm, _⟩
        rw [hhit] at hm
        exact absurd hm (by simp)
    · have hmiss : isHit c k ttl now = false := by
        cases h2 : isHit c k ttl now
        · rfl
        · exact absurd h2 hhit
      rw [get_or_compute_miss hmiss]
      match f with
      | Except.error e =>
        refine ⟨Nat.zero_le 1, ?_, fun _ => rfl⟩
        constructor
        · intro h
          exact absurd h (by simp [computeAndStore])
        · rintro ⟨_, v, hv, _⟩
          exact Except.noConfusion hv
      | Except.ok v =>
        rw [computeAndStore_evictions_ok]
        by_cases hgrow : 50 < (dictSet c k v now).length
        · rw [if_pos hgrow]
          refine ⟨le_refl 1, ?_, ?_⟩
          · exact ⟨fun _ => ⟨hmiss, v, rfl, hgrow⟩, fun _ => rfl⟩
          · intro hpres
            have hkeys := dictSet_keys_present hpres v now
            have hlen1 : (dictSet c k v now).length = c.length := by
              have h1 := congrArg List.length hkeys
              simpa using h1
            omega
        · rw [if_neg hgrow]
          refine ⟨Nat.zero_le 1, ?_, fun _ => rfl⟩
          constructor
          · intro h
            exact absurd h (by simp)
          · rintro ⟨_, v2, hv2, hg2⟩
            obtain rfl : v = v2 := by
              injection hv2
            exact absurd hg2 hgrow

/-- Witness for C3: a one-call trace from the empty cache, and the per-call
eviction facts on a small cache. -/
theorem C3_capacity_invariant_witness :
    (run ([] : Cache String Nat)
        [⟨"k", 10, 0, (Except.ok 1 : Except String Nat)⟩]).length ≤ 50 ∧
    ((get_or_compute [("a", 5, 0)] "k" 10 3 (Except.ok 7 : Except String Nat)).evictions ≤ 1 ∧
      ((get_or_compute [("a", 5, 0)] "k" 10 3 (Except.ok 7 : Except String Nat)).evictions = 1 ↔
        (isHit [("a", (5 : Nat), (0 : Int))] "k" 10 3 = false ∧
          ∃ v, (Except.ok 7 : Except String Nat) = Except.ok v ∧
            50 < (dictSet [("a", (5 : Nat), (0 : Int))] "k" v 3).length)) ∧
      (dictLookup [("a", (5 : Nat), (0 : Int))] "k" ≠ none →
        (get_or_compute [("a", 5, 0)] "k" 10 3
          (Except.ok 7 : Except String Nat)).evictions = 0)) :=
  ⟨(C3_capacity_invariant (V := Nat) (E := String)).1 [⟨"k", 10, 0, Except.ok 1⟩],
    (C3_capacity_invariant (V := Nat) (E := String)).2 [("a", 5, 0)] "k" 10 3
      (Except.ok 7) (by decide)⟩

/-- C4: whenever an insertion leaves the cache with more than 50 entries,
exactly one entry is removed, and it is an entry whose insertion timestamp is
smallest in the whole post-insertion cache (oldest by insertion time). -/
theorem C4_evicts_oldest_timestamp (c : Cache String V) (k : String) (ttl now : Int)
    (v : V) (hmiss : isHit c k ttl now = false)
    (hgrow : 50 < (dictSet c k v now).length) :
    ∃ kd vd td,
      (kd, vd, td) ∈ dictSet c k v now ∧
      (∀ e ∈ dictSet c k v now, td ≤ e.2.2) ∧
      (get_or_compute c k ttl now (Except.ok v : Except E V)).cache
        = dictDel (dictSet c k v now) kd ∧
      (get_or_compute c k ttl now (Except.ok v : Except E V)).evictions = 1 := by
  rw [get_or_compute_miss hmiss]
  have hne : dictSet c k v now ≠ [] := by
    intro h
    rw [h] at hgrow
    simp at hgrow
  obtain ⟨kd, hkd⟩ := oldestKey_ne_none hne
  obtain ⟨vd, td, hmem, hmin⟩ := oldestKey_spec hkd
  refine ⟨kd, vd, td, hmem, hmin, ?_, ?_⟩
  · simp only [computeAndStore, if_pos hgrow, hkd]
  · simp only [computeAndStore, if_pos hgrow, hkd]

/-- 51 distinct keys with values and strictly increasing timestamps, used as
concrete input for the capacity and eviction scenarios. -/
def k51 : List (String × Nat × Int) :=
 [
  ("a00", 0, 0),
  ("a01", 1, 1),
  ("a02", 2, 2),
  ("a03", 3, 3),
  ("a04", 4, 4),
  ("a05", 5, 5),
  ("a06", 6, 6),
  ("a07", 7, 7),
  ("a08", 8, 8),
  ("a09", 9, 9),
  ("a10", 10, 10),
  ("a11", 11, 11),
  ("a12", 12, 12),
  ("a13", 13, 13),
  ("a14", 14, 14),
  ("a15", 15, 15),
  ("a16", 16, 16),
  ("a17", 17, 17),
  ("a18", 18, 18),
  ("a19", 19, 19),
  ("a20", 20, 20),
  ("a21", 21, 21),
  ("a22", 22, 22),
  ("a23", 23, 23),
  ("a24", 24, 24),
  ("a25", 25, 25),
  ("a26", 26, 26),
  ("a27", 27, 27),
  ("a28", 28, 28),
  ("a29", 29, 29),
  ("a30", 30, 30),
  ("a31", 31, 31),
  ("a32", 32, 32),
  ("a33", 33, 33),
  ("a34", 34, 34),
  ("a35", 35, 35),
  ("a36", 36, 36),
  ("a37", 37, 37),
  ("a38", 38, 38),
  ("a39", 39, 39),
  ("a40", 40, 40),
  ("a41", 41, 41),
  ("a42", 42, 42),
  ("a43", 43, 43),
  ("a44", 44, 44),
  ("a45", 45, 45),
  ("a46", 46, 46),
  ("a47", 47, 47),
  ("a48", 48, 48),
  ("a49", 49, 49),
  ("a50", 50, 50)
 ]

/-- The first 50 of `k51` viewed as a full-capacity cache. -/
def bigCache : Cache String Nat := k51.take 50

set_option maxRecDepth 100000 in
/-- Witness for C4: inserting the fresh key `"x"` into the 50-entry cache
evicts an entry of globally minimal timestamp. -/
theorem C4_evicts_oldest_timestamp_witness :
    ∃ kd vd td,
      (kd, vd, td) ∈ dictSet bigCache "x" 7 100 ∧
      (∀ e ∈ dictSet bigCache "x" 7 100, td ≤ e.2.2) ∧
      (get_or_compute bigCache "x" 10 100 (Except.ok 7 : Except String Nat)).cache
        = dictDel (dictSet bigCache "x" 7 100) kd ∧
      (get_or_compute bigCache "x" 10 100 (Except.ok 7 : Except String Nat)).evictions = 1 :=
  C4_evicts_oldest_timestamp bigCache "x" 10 100 7 (by decide) (by decide)

theorem mem_of_mem_dictSet_ne [DecidableEq K] {c : Cache K V} {e : K × V × Int} {k : K}
    {v : V} {t : Int} (hmem : e ∈ dictSet c k v t) (hne : e.1 ≠ k) : e ∈ c := by
  induction c with
  | nil =>
    simp [dictSet] at hmem
    rw [hmem] at hne
    exact absurd rfl hne
  | cons x rest ih =>
    obtain ⟨k2, v2, t2⟩ := x
    by_cases hk : k2 = k
    · simp only [dictSet, if_pos hk] at hmem
      rcases List.mem_cons.mp hmem with h | h
      · rw [h] at hne
        exact absurd rfl hne
      · exact List.mem_cons_of_mem _ h
    · simp only [dictSet, if_neg hk] at hmem
      rcases List.mem_cons.mp hmem with h | h
      · exact h ▸ List.mem_cons_self _ _
      · exact List.mem_cons_of_mem _ (ih h)

set_option maxRecDepth 100000 in
/-- Counterexample to C7 as stated: on a 50-entry cache, a `get_or_compute`
call on the fresh key `"x"` removes the distinct key `"a00"` (it is evicted),
so a call on one key can affect another key's presence. -/
theorem C7_counterexample :
    dictLookup bigCache "a00" = some (0, 0) ∧
    dictLookup (get_or_compute bigCache "x" 10 100
        (Except.ok 7 : Except String Nat)).cache "a00" = none := by
  exact ⟨by decide, by decide⟩

/-- C7 (amended): a `get_or_compute` call on `k₁` never changes the value or
timestamp stored under a distinct key `k₂`; the only possible effect on `k₂`
is its complete removal by the eviction step, which can happen only when the
call evicts and `k₂`'s entry has a timestamp at most `now` and at most the
timestamp of every entry whose key differs from `k₁`. -/
theorem C7_key_isolation_amended (c : Cache String V) (k₁ k₂ : String) (ttl now : Int)
    (f : Except E V) (hnd : (c.map (fun e => e.1)).Nodup) (hne : k₁ ≠ k₂) :
    dictLookup (get_or_compute c k₁ ttl now f).cache k₂ = dictLookup c k₂ ∨
    ((get_or_compute c k₁ ttl now f).evictions = 1 ∧
      dictLookup (get_or_compute c k₁ ttl now f).cache k₂ = none ∧
      ∃ v₂ t₂, dictLookup c k₂ = some (v₂, t₂) ∧ t₂ ≤ now ∧
        ∀ e ∈ c, e.1 ≠ k₁ → t₂ ≤ e.2.2) := by
  by_cases hhit : isHit c k₁ ttl now = true
  · obtain ⟨v, t, hmem, hfresh⟩ := isHit_true_iff.mp hhit
    rw [get_or_compute_hit hmem hfresh]
    exact Or.inl rfl
  · rw [get_or_compute_miss (isHit_false_of_ne hhit)]
    match f with
    | Except.error e => exact Or.inl rfl
    | Except.ok v =>
      simp only [computeAndStore]
      by_cases hgrow : 50 < (dictSet c k₁ v now).length
      · rw [if_pos hgrow]
        have hne1 : dictSet c k₁ v now ≠ [] := by
          intro h
          rw [h] at hgrow
          simp at hgrow
        obtain ⟨kd, hkd⟩ := oldestKey_ne_none hne1
        rw [hkd]
        by_cases hkd2 : kd = k₂
        · subst hkd2
          right
          have hnd1 : ((dictSet c k₁ v now).map (fun e => e.1)).Nodup :=
            dictSet_nodup_keys v now hnd
          refine ⟨rfl, dictLookup_dictDel_self hnd1, ?_⟩
          obtain ⟨vd, td, hmem, hmin⟩ := oldestKey_spec hkd
          have hmemc : (kd, vd, td) ∈ c :=
            mem_of_mem_dictSet_ne hmem (Ne.symm hne)
          refine ⟨vd, td, ?_, ?_, ?_⟩
          · have := mem_dictLookup hnd hmemc
            exact this
          · have hk1mem : (k₁, v, now) ∈ dictSet c k₁ v now :=
              dictLookup_mem (dictLookup_dictSet_self c k₁ v now)
            exact hmin _ hk1mem
          · intro e hec hek
            exact hmin e (mem_dictSet_ne hec hek v now)
        · left
          rw [dictLookup_dictDel_ne (fun h => hkd2 h.symm)]
          exact dictLookup_dictSet_ne (Ne.symm hne) v now
      · rw [if_neg hgrow]
        exact Or.inl (dictLookup_dictSet_ne (Ne.symm hne) v now)

/-- Witness for C7 (amended) on a small cache with no eviction: the other
key's entry is untouched. -/
theorem C7_key_isolation_amended_witness :
    dictLookup (get_or_compute [("a", 1, 0)] "b" 10 5
        (Except.ok 9 : Except String Nat)).cache "a"
      = dictLookup [("a", (1 : Nat), (0 : Int))] "a" ∨
    ((get_or_compute [("a", 1, 0)] "b" 10 5 (Except.ok 9 : Except String Nat)).evictions = 1 ∧
      dictLookup (get_or_compute [("a", 1, 0)] "b" 10 5
        (Except.ok 9 : Except String Nat)).cache "a" = none ∧
      ∃ v₂ t₂, dictLookup [("a", (1 : Nat), (0 : Int))] "a" = some (v₂, t₂) ∧ t₂ ≤ 5 ∧
        ∀ e ∈ [("a", (1 : Nat), (0 : Int))], e.1 ≠ "b" → t₂ ≤ e.2.2) :=
  C7_key_isolation_amended [("a", 1, 0)] "b" "a" 10 5 (Except.ok 9) (by decide) (by decide)

theorem run_cons [DecidableEq K] (c : Cache K V) (x : Call K V E) (xs : List (Call K V E)) :
    run c (x :: xs) = run (get_or_compute c x.key x.ttl x.now x.fn).cache xs := rfl

theorem run_append [DecidableEq K] (c : Cache K V) (l₁ l₂ : List (Call K V E)) :
    run c (l₁ ++ l₂) = run (run c l₁) l₂ := by
  unfold run
  exact List.foldl_append _ _ l₁ l₂

theorem run_one [DecidableEq K] (c : Cache K V) (x : Call K V E) :
    run c [x] = (get_or_compute c x.key x.ttl x.now x.fn).cache := rfl

/-- Running successful misses on fresh keys, while staying at or below
capacity, simply appends the corresponding entries in call order. -/
theorem run_fill [DecidableEq K] (ttl : Int) :
    ∀ (xs : List (K × V × Int)) (c : Cache K V),
      (c.map (fun e => e.1) ++ xs.map (fun e => e.1)).Nodup →
      c.length + xs.length ≤ 50 →
      run c (xs.map (fun x => (⟨x.1, ttl, x.2.2, Except.ok x.2.1⟩ : Call K V E))) = c ++ xs := by
  intro xs
  induction xs with
  | nil =>
    intro c _ _
    simp [run]
  | cons x rest ih =>
    intro c hnd hlen
    have hnd2 := hnd
    rw [List.nodup_append] at hnd2
    have habs : x.1 ∉ c.map (fun e => e.1) := by
      intro hmem
      exact hnd2.2.2 hmem (by simp)
    have hlk : dictLookup c x.1 = none := (dictLookup_eq_none c x.1).mpr habs
    have hstep : (get_or_compute c x.1 ttl x.2.2 (Except.ok x.2.1 : Except E V)).cache
        = c ++ [(x.1, x.2.1, x.2.2)] := by
      unfold get_or_compute
      rw [hlk]
      simp only [computeAndStore]
      rw [dictSet_absent habs]
      have hnogrow : ¬ 50 < (c ++ [(x.1, x.2.1, x.2.2)]).length := by
        simp only [List.length_append, List.length_cons, List.length_nil]
        simp only [List.length_cons] at hlen
        omega
      rw [if_neg hnogrow]
    rw [List.map_cons, run_cons]
    dsimp only
    rw [hstep]
    have heq : (c ++ [(x.1, x.2.1, x.2.2)]) ++ rest = c ++ x :: rest := by
      rw [List.append_assoc]
      rfl
    rw [← heq]
    apply ih
    · have hmaps : (c ++ [(x.1, x.2.1, x.2.2)]).map (fun e => e.1)
          ++ rest.map (fun e => e.1)
          = c.map (fun e => e.1) ++ (x :: rest).map (fun e => e.1) := by
        simp
      rw [hmaps]
      exact hnd
    · simp only [List.length_append, List.length_cons, List.length_nil]
      simp only [List.length_cons] at hlen
      omega

/-- C5: inserting 51 distinct keys (each call a miss) with non-decreasing
insertion timestamps into an initially empty cache leaves exactly 50 entries;
the first-inserted key is absent and each of the other 50 keys is present with
its stored value and timestamp. -/
theorem C5_fifty_one_distinct_inserts (xs : List (String × V × Int)) (ttl : Int)
    (hnd : (xs.map (fun e => e.1)).Nodup) (hlen : xs.length = 51)
    (hsorted : (xs.map (fun e => e.2.2)).Sorted (fun a b => a ≤ b)) :
    (run ([] : Cache String V)
      (xs.map (fun x => (⟨x.1, ttl, x.2.2, Except.ok x.2.1⟩ : Call String V E)))).length = 50 ∧
    (∀ x₀, xs.head? = some x₀ →
      dictLookup (run ([] : Cache String V)
        (xs.map (fun x => (⟨x.1, ttl, x.2.2, Except.ok x.2.1⟩ : Call String V E)))) x₀.1
        = none) ∧
    (∀ x ∈ xs.tail,
      dictLookup (run ([] : Cache String V)
        (xs.map (fun x => (⟨x.1, ttl, x.2.2, Except.ok x.2.1⟩ : Call String V E)))) x.1
        = some (x.2.1, x.2.2)) := by
  have hne : xs ≠ [] := by
    intro h
    rw [h] at hlen
    simp at hlen
  obtain ⟨x₀, rest, rfl⟩ : ∃ x₀ rest, xs = x₀ :: rest := by
    match xs, hne with
    | x :: r, _ => exact ⟨x, r, rfl⟩
  obtain ⟨k0, v0, t0⟩ := x₀
  have htake : ((k0, v0, t0) :: rest).take 50 ++ ((k0, v0, t0) :: rest).drop 50
      = (k0, v0, t0) :: rest := List.take_append_drop 50 _
  have hdlen : (((k0, v0, t0) :: rest).drop 50).length = 1 := by
    rw [List.length_drop, hlen]
  obtain ⟨xl, hxl⟩ := List.length_eq_one.mp hdlen
  have hflen : (((k0, v0, t0) :: rest).take 50).length = 50 := by
    rw [List.length_take, hlen]
    rfl
  have hndsplit := hnd
  rw [← htake, List.map_append, List.nodup_append] at hndsplit
  have hxlabs : xl.1 ∉ (((k0, v0, t0) :: rest).take 50).map (fun e => e.1) := by
    intro hmem
    refine hndsplit.2.2 hmem ?_
    rw [hxl]
    simp
  have hrunfront : run ([] : Cache String V)
      ((((k0, v0, t0) :: rest).take 50).map
        (fun x => (⟨x.1, ttl, x.2.2, Except.ok x.2.1⟩ : Call String V E)))
      = ((k0, v0, t0) :: rest).take 50 := by
    have h0 := run_fill (E := E) ttl (((k0, v0, t0) :: rest).take 50) []
    simp only [List.map_nil, List.nil_append, List.length_nil] at h0
    exact h0 hndsplit.1 (by omega)
  have hfinal : run ([] : Cache String V)
      (((k0, v0, t0) :: rest).map
        (fun x => (⟨x.1, ttl, x.2.2, Except.ok x.2.1⟩ : Call String V E)))
      = rest := by
    conv_lhs => rw [← htake]
    rw [List.map_append, run_append, hrunfront, hxl, List.map_cons, List.map_nil, run_one]
    dsimp only
    have hlkf : dictLookup (((k0, v0, t0) :: rest).take 50) xl.1 = none :=
      (dictLookup_eq_none _ _).mpr hxlabs
    unfold get_or_compute
    rw [hlkf]
    simp only [computeAndStore]
    have hc1 : dictSet (((k0, v0, t0) :: rest).take 50) xl.1 xl.2.1 xl.2.2
        = (k0, v0, t0) :: rest := by
      rw [dictSet_absent hxlabs]
      have hxle : (xl.1, xl.2.1, xl.2.2) = xl := rfl
      rw [hxle, ← hxl]
      exact htake
    rw [hc1]
    have hgrow : 50 < ((k0, v0, t0) :: rest).length := by
      rw [hlen]
      omega
    rw [if_pos hgrow]
    have hmono : ∀ e ∈ rest, t0 ≤ e.2.2 := by
      rw [List.map_cons, List.sorted_cons] at hsorted
      intro e hemem
      exact hsorted.1 _ (List.mem_map_of_mem _ hemem)
    have hold : oldestKey ((k0, v0, t0) :: rest) = some k0 := by
      simp only [oldestKey]
      rw [foldMin_keep hmono]
    rw [hold]
    dsimp only
    simp [dictDel]
  rw [hfinal]
  refine ⟨?_, ?_, ?_⟩
  · simp only [List.length_cons] at hlen
    omega
  · intro x₀ hx₀
    simp only [List.head?_cons, Option.some.injEq] at hx₀
    subst hx₀
    refine (dictLookup_eq_none rest k0).mpr ?_
    simp only [List.map_cons, List.nodup_cons] at hnd
    exact hnd.1
  · intro x hx
    simp only [List.tail_cons] at hx
    simp only [List.map_cons, List.nodup_cons] at hnd
    exact mem_dictLookup hnd.2 hx

set_option maxRecDepth 1000000 in
/-- Witness for C5: the 51 concrete calls of `k51` leave a 50-entry cache
missing the first key `"a00"` and containing all the others. -/
theorem C5_fifty_one_distinct_inserts_witness :
    (run ([] : Cache String Nat)
      (k51.map (fun x => (⟨x.1, 10, x.2.2, Except.ok x.2.1⟩ : Call String Nat String)))).length
        = 50 ∧
    (∀ x₀, k51.head? = some x₀ →
      dictLookup (run ([] : Cache String Nat)
        (k51.map (fun x => (⟨x.1, 10, x.2.2, Except.ok x.2.1⟩ : Call String Nat String)))) x₀.1
        = none) ∧
    (∀ x ∈ k51.tail,
      dictLookup (run ([] : Cache String Nat)
        (k51.map (fun x => (⟨x.1, 10, x.2.2, Except.ok x.2.1⟩ : Call String Nat String)))) x.1
        = some (x.2.1, x.2.2)) :=
  C5_fifty_one_distinct_inserts k51 10 (by decide) (by decide) (by decide)

/-- C9: routes stack `cache_response` outside `handle_errors`, so the compute
function the cache sees never raises; when the handler raises a generic
exception on a miss, the generated 500 response is stored as a cache entry,
and a second call under the same key within the TTL returns that stored error
response without invoking anything. -/
theorem C9_error_responses_cached (c : Cache String (HttpResult V)) (k : String)
    (ttl now₁ now₂ : Int) (msg : String) (g : Except Empty (HttpResult V))
    (hmiss : isHit c k ttl now₁ = false) (hlen : c.length ≤ 50)
    (htime : timesLE c now₁) (hwin : now₂ - now₁ < ttl) :
    (get_or_compute c k ttl now₁
        (Except.ok (handle_errors (Except.error (PyExc.other msg) : Except PyExc V))
          : Except Empty (HttpResult V))).result
      = Except.ok (internalErrorResponse : HttpResult V) ∧
    dictLookup (get_or_compute c k ttl now₁
        (Except.ok (handle_errors (Except.error (PyExc.other msg) : Except PyExc V))
          : Except Empty (HttpResult V))).cache k
      = some ((internalErrorResponse : HttpResult V), now₁) ∧
    (get_or_compute (get_or_compute c k ttl now₁
        (Except.ok (handle_errors (Except.error (PyExc.other msg) : Except PyExc V))
          : Except Empty (HttpResult V))).cache k ttl now₂ g).result
      = Except.ok (internalErrorResponse : HttpResult V) ∧
    (get_or_compute (get_or_compute c k ttl now₁
        (Except.ok (handle_errors (Except.error (PyExc.other msg) : Except PyExc V))
          : Except Empty (HttpResult V))).cache k ttl now₂ g).calls = 0 := by
  have h500 : handle_errors (Except.error (PyExc.other msg) : Except PyExc V)
      = (internalErrorResponse : HttpResult V) := rfl
  rw [h500]
  obtain ⟨h1, _, h3, _⟩ :=
    miss_store (E := Empty) (internalErrorResponse : HttpResult V) hmiss hlen htime
  rw [get_or_compute_hit h3 hwin g]
  exact ⟨h1, h3, rfl, rfl⟩

/-- Witness for C9: a raising handler on the empty cache at time 0, re-queried
at time 5 with TTL 10. -/
theorem C9_error_responses_cached_witness :
    (get_or_compute ([] : Cache String (HttpResult Nat)) "k" 10 0
        (Except.ok (handle_errors (Except.error (PyExc.other "boom") : Except PyExc Nat))
          : Except Empty (HttpResult Nat))).result
      = Except.ok (internalErrorResponse : HttpResult Nat) ∧
    dictLookup (get_or_compute ([] : Cache String (HttpResult Nat)) "k" 10 0
        (Except.ok (handle_errors (Except.error (PyExc.other "boom") : Except PyExc Nat))
          : Except Empty (HttpResult Nat))).cache "k"
      = some ((internalErrorResponse : HttpResult Nat), 0) ∧
    (get_or_compute (get_or_compute ([] : Cache String (HttpResult Nat)) "k" 10 0
        (Except.ok (handle_errors (Except.error (PyExc.other "boom") : Except PyExc Nat))
          : Except Empty (HttpResult Nat))).cache "k" 10 5
        (Except.ok (HttpResult.success 3) : Except Empty (HttpResult Nat))).result
      = Except.ok (internalErrorResponse : HttpResult Nat) ∧
    (get_or_compute (get_or_compute ([] : Cache String (HttpResult Nat)) "k" 10 0
        (Except.ok (handle_errors (Except.error (PyExc.other "boom") : Except PyExc Nat))
          : Except Empty (HttpResult Nat))).cache "k" 10 5
        (Except.ok (HttpResult.success 3) : Except Empty (HttpResult Nat))).calls = 0 :=
  C9_error_responses_cached ([] : Cache String (HttpResult Nat)) "k" 10 0 5 "boom"
    (Except.ok (HttpResult.success 3) : Except Empty (HttpResult Nat)) (by decide) (by decide) (by decide) (by decide)

/-- C10: the cache key is derived only from the handler name, HTTP method,
request path and stringified positional arguments — keyword arguments are
excluded — so a `wrapper` call is exactly a `get_or_compute` on that
kwargs-independent key, and a second call with the same positional data but
different keyword arguments within the TTL returns the first call's cached
result without invoking its handler. -/
theorem C10_kwargs_excluded_from_key (c : Cache String V)
    (fname method path : String) (ttl now₁ now₂ : Int) (argsStr : A → String) (args : A)
    (kw₁ kw₂ : B) (f₁ f₂ : A → B → Except E V) (v₁ : V)
    (hmiss : isHit c (cache_key fname method path (argsStr args)) ttl now₁ = false)
    (hlen : c.length ≤ 50) (htime : timesLE c now₁) (hwin : now₂ - now₁ < ttl)
    (hok : f₁ args kw₁ = Except.ok v₁) :
    (∀ (kw : B) (f : A → B → Except E V),
      wrapper c fname method path ttl now₁ argsStr args kw f
        = get_or_compute c (cache_key fname method path (argsStr args)) ttl now₁
            (f args kw)) ∧
    (wrapper c fname method path ttl now₁ argsStr args kw₁ f₁).result = Except.ok v₁ ∧
    (wrapper (wrapper c fname method path ttl now₁ argsStr args kw₁ f₁).cache
        fname method path ttl now₂ argsStr args kw₂ f₂).result = Except.ok v₁ ∧
    (wrapper (wrapper c fname method path ttl now₁ argsStr args kw₁ f₁).cache
        fname method path ttl now₂ argsStr args kw₂ f₂).calls = 0 := by
  unfold wrapper
  rw [hok]
  obtain ⟨h1, _, h3, _⟩ := miss_store (E := E) v₁ hmiss hlen htime
  rw [get_or_compute_hit h3 hwin (f₂ args kw₂)]
  exact ⟨fun _ _ => rfl, h1, rfl, rfl⟩

/-- Witness for C10: two calls differing only in the keyword argument (1
versus 2); the second returns the first call's value 42 without a handler
invocation. -/
theorem C10_kwargs_excluded_from_key_witness :
    (∀ (kw : Nat) (f : Nat → Nat → Except String Nat),
      wrapper ([] : Cache String Nat) "home" "GET" "/" 10 0 (fun _ => "(3,)") 3 kw f
        = get_or_compute ([] : Cache String Nat)
            (cache_key "home" "GET" "/" "(3,)") 10 0 (f 3 kw)) ∧
    (wrapper ([] : Cache String Nat) "home" "GET" "/" 10 0 (fun _ => "(3,)") 3 1
        ((fun _ _ => Except.ok 42) : Nat → Nat → Except String Nat)).result = Except.ok 42 ∧
    (wrapper (wrapper ([] : Cache String Nat) "home" "GET" "/" 10 0 (fun _ => "(3,)") 3 1
          ((fun _ _ => Except.ok 42) : Nat → Nat → Except String Nat)).cache
        "home" "GET" "/" 10 5 (fun _ => "(3,)") 3 2
        ((fun _ _ => Except.ok 99) : Nat → Nat → Except String Nat)).result = Except.ok 42 ∧
    (wrapper (wrapper ([] : Cache String Nat) "home" "GET" "/" 10 0 (fun _ => "(3,)") 3 1
          ((fun _ _ => Except.ok 42) : Nat → Nat → Except String Nat)).cache
        "home" "GET" "/" 10 5 (fun _ => "(3,)") 3 2
        ((fun _ _ => Except.ok 99) : Nat → Nat → Except String Nat)).calls = 0 :=
  C10_kwargs_excluded_from_key ([] : Cache String Nat) "home" "GET" "/" 10 0 5
    (fun _ => "(3,)") 3 1 2 ((fun _ _ => Except.ok 42) : Nat → Nat → Except String Nat)
    ((fun _ _ => Except.ok 99) : Nat → Nat → Except String Nat) 42
    (by decide) (by decide) (by decide) (by decide) rfl

end BarrioCache
